import Mathlib

/-!
Verification of the text-chunking utility (`chunkText`, `deduplicateChunks`)
and the client-side cache (`Cache`) of the gen-quiz-bot repository.

The TypeScript source is embedded shallowly:
* strings are `List Char`;
* JavaScript numbers that can become fractional (the chunker's cursor
  arithmetic, where `chunkContent.length * 0.3` is subtracted from an index)
  are modelled as exact rationals `ℚ`, with the decimal literals 0.3 / 0.6 /
  0.7 embedded as 3/10, 6/10, 7/10;
* `Date.now()` is passed in explicitly as an integer `now` parameter;
* the cache is modelled by explicit state passing: a per-instance memory map
  (insertion-ordered association list, mirroring a JS `Map`) plus the shared
  `localStorage` object (association list from raw storage keys to parsed
  entries; `JSON.stringify`/`JSON.parse` round-tripping is taken as the
  identity, and a `quotaFull` flag models `localStorage.setItem` throwing);
* a JS payload of type `T` (which may be `null`) is modelled as `Option U`,
  with `none` playing the role of `null`, so that the source's `=== null`
  checks can be expressed faithfully.
-/

/-- Whitespace characters matched by the JavaScript regex class `\\s`
(space, tab, line terminators, vertical tab, form feed, NBSP, the Unicode
space separators, and the BOM). -/
def isJsWs (c : Char) : Bool :=
  c == ' ' || c == '\t' || c == '\n' || c == '\r' ||
  c.val == 11 || c.val == 12 || c.val == 0xa0 || c.val == 0x1680 ||
  (0x2000 ≤ c.val && c.val ≤ 0x200a) ||
  c.val == 0x2028 || c.val == 0x2029 || c.val == 0x202f ||
  c.val == 0x205f || c.val == 0x3000 || c.val == 0xfeff

/-- Sentence-terminating punctuation of the regex `[.!?]+\s` in
`findLastSentenceEnd`. -/
def isSentenceEnder (c : Char) : Bool :=
  c == '.' || c == '!' || c == '?'

/-- Body of `text.replace(/\s+/g, ' ')`: each maximal run of whitespace is
replaced by a single space.  The flag records whether we are inside a run
whose replacement space has already been emitted. -/
def normWsGo : Bool → List Char → List Char
  | _, [] => []
  | inRun, c :: t =>
    if isJsWs c then
      if inRun then normWsGo true t else ' ' :: normWsGo true t
    else c :: normWsGo false t

/-- Embeds `text.replace(/\s+/g, ' ')`. -/
def jsCollapseWs (l : List Char) : List Char := normWsGo false l

/-- Body of `text.replace(/\n{3,}/g, '\n\n')`: of every maximal run of
newlines only the first two are kept.  The counter is the number of
consecutive newlines seen so far. -/
def collapseNlGo : Nat → List Char → List Char
  | _, [] => []
  | k, c :: t =>
    if c = '\n' then
      if k < 2 then '\n' :: collapseNlGo (k + 1) t else collapseNlGo (k + 1) t
    else c :: collapseNlGo 0 t

/-- Embeds `text.replace(/\n{3,}/g, '\n\n')`. -/
def jsCollapseNl (l : List Char) : List Char := collapseNlGo 0 l

/-- Embeds `String.prototype.trim`. -/
def jsTrim (l : List Char) : List Char :=
  ((l.dropWhile (isJsWs ·)).reverse.dropWhile (isJsWs ·)).reverse

/-- Normalization performed at the start of `chunkText`:
`text.replace(/\s+/g, ' ').replace(/\n{3,}/g, '\n\n').trim()`. -/
def cleanTextOf (text : String) : List Char :=
  jsTrim (jsCollapseNl (jsCollapseWs text.data))

/-- Worker for `String.prototype.split(/\s+/)`.  Mode `false`: accumulating a
fragment (`cur`, reversed); mode `true`: skipping a separator run whose
fragment has already been emitted. -/
def splitWsGo : Bool → List Char → List Char → List (List Char)
  | false, [], cur => [cur.reverse]
  | false, c :: t, cur =>
    if isJsWs c then cur.reverse :: splitWsGo true t [] else splitWsGo false t (c :: cur)
  | true, [], _ => [[]]
  | true, c :: t, _ =>
    if isJsWs c then splitWsGo true t [] else splitWsGo false t [c]

/-- Embeds `s.split(/\s+/)`: fragments between maximal whitespace runs,
including an empty leading fragment when the string starts with whitespace
and an empty trailing fragment when it ends with whitespace; `"".split`
yields `[""]`. -/
def jsSplitWs (l : List Char) : List (List Char) := splitWsGo false l []

/-- Scanner for `findLastSentenceEnd`: the regex `/[.!?]+\s/g` ends its last
match one position after the last whitespace character that is immediately
preceded by sentence punctuation.  `i` is the index of the head of the
remaining list; `best` the last match end seen so far. -/
def lastSentenceScan : Nat → Option Nat → List Char → Option Nat
  | _, best, [] => best
  | _, best, [_] => best
  | i, best, c1 :: c2 :: t =>
    lastSentenceScan (i + 1)
      (if isSentenceEnder c1 ∧ isJsWs c2 then some (i + 2) else best) (c2 :: t)

/-- Embeds `findLastSentenceEnd`: the end of the last `[.!?]+\s` match, or
the text length when there is none (`lastMatch > 0 ? lastMatch : text.length`;
every match end is at least 2). -/
def findLastSentenceEnd (l : List Char) : Nat :=
  match lastSentenceScan 0 none l with
  | some m => m
  | none => l.length

/-- Scanner for `text.lastIndexOf('\n\n')`. -/
def lastDoubleNlScan : Nat → Option Nat → List Char → Option Nat
  | _, best, [] => best
  | _, best, [_] => best
  | i, best, c1 :: c2 :: t =>
    lastDoubleNlScan (i + 1)
      (if c1 = '\n' ∧ c2 = '\n' then some i else best) (c2 :: t)

/-- Embeds `findLastParagraphEnd`: `lastIndexOf('\n\n')` plus 2 when that
index is positive, otherwise the text length (note the source treats an
occurrence at index 0 like absence, since it tests `lastParagraph > 0`). -/
def findLastParagraphEnd (l : List Char) : Nat :=
  match lastDoubleNlScan 0 none l with
  | some p => if p > 0 then p + 2 else l.length
  | none => l.length

/-- Embeds `trimToWordLimit`: split on `/\s+/`, and when over the limit keep
the first `wordLimit` fragments joined by single spaces. -/
def trimToWordLimit (l : List Char) (wordLimit : Nat) : List Char :=
  let words := jsSplitWs l
  if words.length ≤ wordLimit then l
  else List.intercalate [' '] (words.take wordLimit)

/-- Conversion applied by `String.prototype.substring` to its (possibly
fractional) arguments: truncate toward zero, then clamp into `[0, len]`. -/
def jsSubIdx (q : ℚ) (len : Nat) : Nat :=
  if q < 0 then 0 else min q.floor.toNat len

/-- Embeds `s.substring(a, b)` including the swap when `start > end`. -/
def jsSubstring (l : List Char) (a b : ℚ) : List Char :=
  let i := jsSubIdx a l.length
  let j := jsSubIdx b l.length
  if i ≤ j then (l.take j).drop i else (l.take i).drop j

/-- Embeds the `TextChunk` interface.  `content` is a character list;
`startIndex`/`endIndex` are the (possibly fractional) cursor values the
source stores. -/
structure TextChunk where
  id : String
  content : List Char
  startIndex : ℚ
  endIndex : ℚ
  wordCount : Nat
deriving DecidableEq, Repr

/-- Embeds the `ChunkingOptions` interface; `none` is `undefined`. -/
structure ChunkingOptions where
  maxWords : Option Nat := none
  maxChars : Option Nat := none
  overlap : Option Nat := none
  preserveParagraphs : Option Bool := none
  preserveSentences : Option Bool := none
deriving DecidableEq, Repr

/-- Destructuring default `maxWords = 500` (applied only to `undefined`). -/
def ChunkingOptions.rMaxWords (o : ChunkingOptions) : Nat := o.maxWords.getD 500

/-- Destructuring default `maxChars = 3000`. -/
def ChunkingOptions.rMaxChars (o : ChunkingOptions) : Nat := o.maxChars.getD 3000

/-- Destructuring default `overlap = 50`. -/
def ChunkingOptions.rOverlap (o : ChunkingOptions) : Nat := o.overlap.getD 50

/-- Destructuring default `preserveParagraphs = true`. -/
def ChunkingOptions.rPresPar (o : ChunkingOptions) : Bool := o.preserveParagraphs.getD true

/-- Destructuring default `preserveSentences = true`. -/
def ChunkingOptions.rPresSen (o : ChunkingOptions) : Bool := o.preserveSentences.getD true

/-- Embeds `generateChunkId`; the `Date.now()` component is the explicit
`now` parameter. -/
def generateChunkId (index : Nat) (now : Int) : String :=
  "chunk_" ++ toString index ++ "_" ++ toString now

/-- One iteration of the `while` loop of `chunkText` up to the point where
the chunk content and its final `chunkEnd` are fixed: the `maxChars` window,
the sentence-boundary shrink, the paragraph-boundary shrink, and the
`maxWords` truncation.  Returns (chunkContent, chunkEnd). -/
def chunkCore (ct : List Char) (o : ChunkingOptions) (idx : ℚ) : List Char × ℚ :=
  let len : ℚ := ct.length
  let ce0 : ℚ := min (idx + o.rMaxChars) len
  let cc0 := jsSubstring ct idx ce0
  let s1 : List Char × ℚ :=
    if o.rPresSen ∧ ce0 < len then
      let lse := findLastSentenceEnd cc0
      if (lse : ℚ) > (cc0.length : ℚ) * (7 / 10) then
        (jsSubstring ct idx (idx + lse), idx + lse)
      else (cc0, ce0)
    else (cc0, ce0)
  let s2 : List Char × ℚ :=
    if o.rPresPar ∧ s1.2 < len then
      let lpe := findLastParagraphEnd s1.1
      if (lpe : ℚ) > (s1.1.length : ℚ) * (6 / 10) then
        (jsSubstring ct idx (idx + lpe), idx + lpe)
      else s1
    else s1
  if (jsSplitWs s2.1).length > o.rMaxWords then
    let t := trimToWordLimit s2.1 o.rMaxWords
    (t, idx + t.length)
  else s2

/-- The chunk pushed by one loop iteration together with the next value of
`currentIndex` (`chunkEnd - Math.min(overlap, chunkContent.length * 0.3)`). -/
def chunkStep (ct : List Char) (o : ChunkingOptions) (now : Int) (idx : ℚ)
    (counter : Nat) : TextChunk × ℚ :=
  let p := chunkCore ct o idx
  ({ id := generateChunkId counter now
     content := jsTrim p.1
     startIndex := idx
     endIndex := p.2
     wordCount := (jsSplitWs (jsTrim p.1)).length },
   p.2 - min (o.rOverlap : ℚ) ((p.1.length : ℚ) * (3 / 10)))

/-- The `while` loop of `chunkText`.  Each iteration pushes exactly one
chunk and the source breaks as soon as `chunks.length > 100`, so the loop
body runs at most 101 times; the `fuel` argument (called with 101) is
therefore not a semantic restriction — the `fuel = 0` branch is
unreachable from the initial call. -/
def chunkLoop (ct : List Char) (o : ChunkingOptions) (now : Int) :
    ℚ → Nat → Nat → List TextChunk
  | _, _, 0 => []
  | idx, builtLen, fuel + 1 =>
    if idx < (ct.length : ℚ) then
      let s := chunkStep ct o now idx builtLen
      if s.2 ≥ (ct.length : ℚ) ∨ builtLen + 1 > 100 then [s.1]
      else s.1 :: chunkLoop ct o now s.2 (builtLen + 1) fuel
    else []

/-- Embeds `chunkText` (the `Date.now()` used for chunk ids is the explicit
`now` parameter). -/
def chunkText (now : Int) (text : String) (o : ChunkingOptions) : List TextChunk :=
  let ct := cleanTextOf text
  if ct.length = 0 then []
  else
    let wordCount := (jsSplitWs ct).length
    if wordCount ≤ o.rMaxWords ∧ ct.length ≤ o.rMaxChars then
      [{ id := generateChunkId 0 now
         content := ct
         startIndex := 0
         endIndex := (ct.length : ℚ)
         wordCount := wordCount }]
    else chunkLoop ct o now 0 0 101

/-- Embeds `calculateSimilarity`: Jaccard similarity of the lowercase
whitespace-token sets (JS `Set`s are modelled as deduplicated lists). -/
def calculateSimilarity (text1 text2 : List Char) : ℚ :=
  let words1 := (jsSplitWs (text1.map Char.toLower)).dedup
  let words2 := (jsSplitWs (text2.map Char.toLower)).dedup
  let inter := words1.filter (fun w => w ∈ words2)
  let uni := (words1 ++ words2).dedup
  (inter.length : ℚ) / (uni.length : ℚ)

/-- Worker for `deduplicateChunks`: `prev` is the last kept chunk, `acc`
the kept chunks so far in reverse. -/
def dedupGo (prev : TextChunk) (acc : List TextChunk) :
    List TextChunk → List TextChunk
  | [] => acc.reverse
  | c :: t =>
    if calculateSimilarity c.content prev.content < 7 / 10 then
      dedupGo c (c :: acc) t
    else dedupGo prev acc t

/-- Embeds `deduplicateChunks`.  (The source's early return for lists of
length ≤ 1 coincides with the generic path, which always keeps the first
chunk.) -/
def deduplicateChunks : List TextChunk → List TextChunk
  | [] => []
  | c :: rest => c :: dedupGo c [] rest

/-- The `storage` option of the cache (`'memory' | 'localStorage'`). -/
inductive CacheStorage where
  | memory
  | localStorage
deriving DecidableEq, Repr

/-- Embeds `CacheEntry<T>`.  A JS payload of type `T` may be `null`; it is
modelled as `Option U` with `none` for `null`. -/
structure CacheEntry (U : Type) where
  data : Option U
  timestamp : Int
  expiresAt : Int
  key : String
deriving DecidableEq, Repr

/-- Embeds the `CacheOptions` interface; `none` is `undefined`. -/
structure CacheOptions where
  ttl : Option Int := none
  maxEntries : Option Nat := none
  storage : Option CacheStorage := none
deriving DecidableEq, Repr

/-- Embeds `options.ttl || 30 * 60 * 1000`: `undefined` and the falsy `0`
both fall back to the default. -/
def CacheOptions.rTtl (o : CacheOptions) : Int :=
  match o.ttl with
  | none => 30 * 60 * 1000
  | some t => if t = 0 then 30 * 60 * 1000 else t

/-- Embeds `options.maxEntries || 100` (again, `0` falls back). -/
def CacheOptions.rMaxEntries (o : CacheOptions) : Nat :=
  match o.maxEntries with
  | none => 100
  | some n => if n = 0 then 100 else n

/-- Embeds `options.storage || 'memory'`. -/
def CacheOptions.rStorage (o : CacheOptions) : CacheStorage :=
  o.storage.getD .memory

/-- Embeds `customTtl || this.options.ttl` in `set`. -/
def CacheOptions.effTtl (o : CacheOptions) (customTtl : Option Int) : Int :=
  match customTtl with
  | none => o.rTtl
  | some t => if t = 0 then o.rTtl else t

/-- A JS `Map<string, ·>` (and also the `localStorage` object, whose
`Object.keys` order for these keys is insertion order): an association list
in insertion order with pairwise-distinct keys. -/
abbrev JsMap (α : Type) := List (String × α)

/-- Lookup in a `JsMap` (JS `map.get` / `localStorage.getItem`). -/
def mapGet (m : JsMap α) (k : String) : Option α :=
  (m.find? (fun p => p.1 == k)).map (·.2)

/-- Update-or-append write of a `JsMap` (JS `map.set` /
`localStorage.setItem`): an existing key keeps its position, a new key is
appended. -/
def mapSet : JsMap α → String → α → JsMap α
  | [], k, v => [(k, v)]
  | p :: t, k, v => if p.1 == k then (k, v) :: t else p :: mapSet t k v

/-- Key removal of a `JsMap` (JS `map.delete` / `localStorage.removeItem`). -/
def mapDelete : JsMap α → String → JsMap α
  | [], _ => []
  | p :: t, k => if p.1 == k then t else p :: mapDelete t k

/-- The `memoryCache` field of one cache instance. -/
abbrev MemoryCache (U : Type) := JsMap (CacheEntry U)

/-- The shared `localStorage` backend, holding the parsed form of each
record (the `JSON.stringify`/`JSON.parse` round trip is modelled as the
identity on entries). -/
abbrev LocalStorageState (U : Type) := JsMap (CacheEntry U)

/-- The raw storage key `` `cache_${key}` `` used by every instance. -/
def lsKeyOf (key : String) : String := "cache_" ++ key

/-- Embeds `s.startsWith(pat)` (on the underlying character lists, so that
it evaluates by kernel reduction). -/
def jsStartsWith (s pat : String) : Bool := pat.data.isPrefixOf s.data

/-- Embeds the private method `setInMemory`: whenever the map already holds
at least `maxEntries` entries, the first-inserted key is deleted (on an
empty map `keys().next().value` is `undefined` and the delete is a no-op);
then the entry is written. -/
def Cache.setInMemory (o : CacheOptions) (m : MemoryCache U) (key : String)
    (entry : CacheEntry U) : MemoryCache U :=
  let m1 :=
    if m.length ≥ o.rMaxEntries then
      match m.head? with
      | some oldest => mapDelete m oldest.1
      | none => m
    else m
  mapSet m1 key entry

/-- Embeds the private method `setInLocalStorage`: `localStorage.setItem`
may throw (modelled by the `quotaFull` flag); the `catch` branch logs and
falls back to `setInMemory`. -/
def Cache.setInLocalStorage (o : CacheOptions) (m : MemoryCache U)
    (ls : LocalStorageState U) (quotaFull : Bool) (key : String)
    (entry : CacheEntry U) : MemoryCache U × LocalStorageState U :=
  if quotaFull then (Cache.setInMemory o m key entry, ls)
  else (m, mapSet ls (lsKeyOf key) entry)

/-- Embeds `Cache.set`: builds the entry with `expiresAt = Date.now() + ttl`
and dispatches on the configured backend. -/
def Cache.set (o : CacheOptions) (m : MemoryCache U) (ls : LocalStorageState U)
    (quotaFull : Bool) (now : Int) (key : String) (data : Option U)
    (customTtl : Option Int) : MemoryCache U × LocalStorageState U :=
  let entry : CacheEntry U :=
    { data := data, timestamp := now, expiresAt := now + o.effTtl customTtl, key := key }
  if o.rStorage = .localStorage then
    Cache.setInLocalStorage o m ls quotaFull key entry
  else (Cache.setInMemory o m key entry, ls)

/-- Embeds the private method `getFromLocalStorage` (read failures and
corrupt entries, which the source turns into `null`, do not arise in the
parsed-state model). -/
def Cache.getFromLocalStorage (ls : LocalStorageState U) (key : String) :
    Option (CacheEntry U) :=
  mapGet ls (lsKeyOf key)

/-- Embeds `Cache.delete`. -/
def Cache.delete (o : CacheOptions) (m : MemoryCache U)
    (ls : LocalStorageState U) (key : String) :
    MemoryCache U × LocalStorageState U :=
  if o.rStorage = .localStorage then (m, mapDelete ls (lsKeyOf key))
  else (mapDelete m key, ls)

/-- Embeds `Cache.get`: read the backend, return `null` when there is no
entry, lazily delete and return `null` when `Date.now() > entry.expiresAt`,
otherwise return `entry.data` (which is itself `null` when `null` was
stored — the same sentinel as a miss). -/
def Cache.get (o : CacheOptions) (m : MemoryCache U) (ls : LocalStorageState U)
    (now : Int) (key : String) :
    Option U × MemoryCache U × LocalStorageState U :=
  let entry :=
    if o.rStorage = .localStorage then Cache.getFromLocalStorage ls key
    else mapGet m key
  match entry with
  | none => (none, m, ls)
  | some e =>
    if now > e.expiresAt then
      let d := Cache.delete o m ls key
      (none, d.1, d.2)
    else (e.data, m, ls)

/-- Embeds `Cache.clear`: for the `localStorage` backend every key of the
shared store that starts with the fixed prefix `cache_` is removed — the
prefix does not depend on the instance; for the memory backend the
instance's own map is emptied. -/
def Cache.clear (o : CacheOptions) (m : MemoryCache U)
    (ls : LocalStorageState U) : MemoryCache U × LocalStorageState U :=
  if o.rStorage = .localStorage then
    (m, ls.filter (fun p => !(jsStartsWith p.1 "cache_")))
  else ([], ls)

/-- Embeds `Cache.getOrSet`.  The generator is modelled by the settled
outcome `producer : Except ε (Option U)` of `await generator()`; the last
component of the result records whether the generator was invoked. -/
def Cache.getOrSet (o : CacheOptions) (m : MemoryCache U)
    (ls : LocalStorageState U) (quotaFull : Bool) (now : Int) (key : String)
    (producer : Except ε (Option U)) (customTtl : Option Int) :
    Except ε (Option U) × MemoryCache U × LocalStorageState U × Bool :=
  let g := Cache.get o m ls now key
  match g.1 with
  | some v => (Except.ok (some v), g.2.1, g.2.2, false)
  | none =>
    match producer with
    | Except.error e => (Except.error e, g.2.1, g.2.2, true)
    | Except.ok data =>
      let s := Cache.set o g.2.1 g.2.2 quotaFull now key data customTtl
      (Except.ok data, s.1, s.2, true)

/-- Embeds the `size` field of `Cache.getStats`: for the `localStorage`
backend, the number of keys of the whole shared store that start with
`cache_`; for the memory backend, the instance map's size. -/
def Cache.getStats (o : CacheOptions) (m : MemoryCache U)
    (ls : LocalStorageState U) : Nat :=
  if o.rStorage = .localStorage then
    (ls.filter (fun p => jsStartsWith p.1 "cache_")).length
  else m.length


/-- The backend location `get` would read for `key`: the instance memory map
for a memory cache, the shared store under the namespaced key for a
`localStorage` cache.  This is the observer used to state which entry is
physically stored under a key. -/
def Cache.lookupBackend (o : CacheOptions) (m : MemoryCache U)
    (ls : LocalStorageState U) (key : String) : Option (CacheEntry U) :=
  if o.rStorage = .localStorage then mapGet ls (lsKeyOf key) else mapGet m key

/-- Shared concrete cache options: a memory cache with ttl 1000 and capacity
2, and a localStorage cache with ttl 1000. -/
def oMem2 : CacheOptions := { ttl := some 1000, maxEntries := some 2 }

/-- Concrete localStorage-backed options used by witnesses. -/
def oLS1 : CacheOptions := { ttl := some 1000, storage := some .localStorage }

/-- Concrete chunking options with `maxChars = 0` and `overlap = 0` (so
`overlap >= maxChars`), used to exercise the loop cap. -/
def copts0 : ChunkingOptions := { maxChars := some 0, overlap := some 0 }

/-- Concrete chunk with content "aa". -/
def chA : TextChunk :=
  { id := "a1", content := "aa".data, startIndex := 0, endIndex := 2, wordCount := 1 }

/-- Concrete chunk with content "bb". -/
def chB : TextChunk :=
  { id := "b2", content := "bb".data, startIndex := 1, endIndex := 3, wordCount := 1 }

/-- Executable check that every adjacent pair of chunks has no gap
(`next.startIndex ≤ prev.endIndex`) and overlap at most `ov`
(`prev.endIndex - next.startIndex ≤ ov`). -/
def adjOkB (ov : ℚ) : List TextChunk → Bool
  | [] => true
  | [_] => true
  | a :: b :: t =>
    (decide (b.startIndex ≤ a.endIndex) && decide (a.endIndex - b.startIndex ≤ ov))
      && adjOkB ov (b :: t)

/-- Formalization of claim C6 for a chunk list: ordered as emitted, the
chunks start at 0, have no gaps and overlaps bounded by `ov`, and the last
chunk ends at the normalized length (so they cover `[0, len)`); for
non-empty text the list is non-empty. -/
@[reducible] def chunksCoverClaim (cs : List TextChunk) (len ov : ℚ) : Prop :=
  cs.head?.all (fun c => decide (c.startIndex = 0)) = true ∧
  adjOkB ov cs = true ∧
  cs.getLast?.all (fun c => decide (c.endIndex = len)) = true ∧
  (len = 0 ∨ cs ≠ [])

/-- Unfolding lemma: lookup on a cons cell. -/
theorem mapGet_cons (p : String × α) (t : JsMap α) (k : String) :
    mapGet (p :: t) k = if p.1 = k then some p.2 else mapGet t k := by
  by_cases h : p.1 = k
  · have hb : (p.1 == k) = true := by simp [h]
    simp [mapGet, List.find?, hb, h]
  · have hb : (p.1 == k) = false := by simp [h]
    simp [mapGet, List.find?, hb, h]

/-- Unfolding lemma: write on a cons cell. -/
theorem mapSet_cons (p : String × α) (t : JsMap α) (k : String) (v : α) :
    mapSet (p :: t) k v = if p.1 = k then (k, v) :: t else p :: mapSet t k v := by
  by_cases h : p.1 = k <;> simp [mapSet, h]

/-- Unfolding lemma: delete on a cons cell. -/
theorem mapDelete_cons (p : String × α) (t : JsMap α) (k : String) :
    mapDelete (p :: t) k = if p.1 = k then t else p :: mapDelete t k := by
  by_cases h : p.1 = k <;> simp [mapDelete, h]

/-- Reading back the key just written returns exactly the written value. -/
theorem mapGet_mapSet_self (m : JsMap α) (k : String) (v : α) :
    mapGet (mapSet m k v) k = some v := by
  induction m with
  | nil => simp [mapSet, mapGet]
  | cons p t ih =>
    rw [mapSet_cons]
    by_cases h : p.1 = k
    · simp [mapGet_cons, h]
    · rw [if_neg h, mapGet_cons, if_neg h]
      exact ih

/-- Writing one key leaves every other key's value unchanged. -/
theorem mapGet_mapSet_ne (m : JsMap α) (k k' : String) (v : α) (h : k' ≠ k) :
    mapGet (mapSet m k v) k' = mapGet m k' := by
  induction m with
  | nil => simp [mapSet, mapGet_cons, mapGet, Ne.symm h]
  | cons p t ih =>
    rw [mapSet_cons]
    by_cases hp : p.1 = k
    · rw [if_pos hp, mapGet_cons, mapGet_cons, if_neg (Ne.symm h), hp, if_neg (Ne.symm h)]
    · rw [if_neg hp, mapGet_cons, mapGet_cons]
      by_cases hp' : p.1 = k'
      · rw [if_pos hp', if_pos hp']
      · rw [if_neg hp', if_neg hp']
        exact ih

/-- Writing a key not present in the map appends it at the end. -/
theorem mapSet_keys_of_not_mem (m : JsMap α) (k : String) (v : α)
    (h : mapGet m k = none) :
    (mapSet m k v).map Prod.fst = m.map Prod.fst ++ [k] := by
  induction m with
  | nil => simp [mapSet]
  | cons p t ih =>
    rw [mapGet_cons] at h
    by_cases hp : p.1 = k
    · rw [if_pos hp] at h; exact absurd h (by simp)
    · rw [if_neg hp] at h
      rw [mapSet_cons, if_neg hp]
      simp [ih h]

/-- Writing a key that is present preserves the key sequence. -/
theorem mapSet_keys_of_mem (m : JsMap α) (k : String) (v : α)
    (h : k ∈ m.map Prod.fst) :
    (mapSet m k v).map Prod.fst = m.map Prod.fst := by
  induction m with
  | nil => simp at h
  | cons p t ih =>
    rw [mapSet_cons]
    by_cases hp : p.1 = k
    · rw [if_pos hp]; simp [hp]
    · rw [if_neg hp]
      simp only [List.map_cons, List.mem_cons] at h
      rcases h with h | h
      · exact absurd h.symm hp
      · simp [ih h]

/-- A key that occurs nowhere in the map reads back as absent. -/
theorem mapGet_eq_none_of_not_mem (m : JsMap α) (k : String)
    (h : k ∉ m.map Prod.fst) : mapGet m k = none := by
  induction m with
  | nil => simp [mapGet]
  | cons p t ih =>
    simp only [List.map_cons, List.mem_cons] at h
    push_neg at h
    rw [mapGet_cons, if_neg (fun he => h.1 he.symm)]
    exact ih h.2

/-- After a delete the deleted key is absent, provided keys were distinct. -/
theorem mapGet_mapDelete_self (m : JsMap α) (k : String)
    (h : (m.map Prod.fst).Nodup) : mapGet (mapDelete m k) k = none := by
  induction m with
  | nil => simp [mapDelete, mapGet]
  | cons p t ih =>
    simp only [List.map_cons, List.nodup_cons] at h
    rw [mapDelete_cons]
    by_cases hp : p.1 = k
    · rw [if_pos hp]
      exact mapGet_eq_none_of_not_mem t k (hp ▸ h.1)
    · rw [if_neg hp, mapGet_cons, if_neg hp]
      exact ih h.2

/-- Deleting a key leaves the other keys' values unchanged. -/
theorem mapGet_mapDelete_ne (m : JsMap α) (k k' : String) (h : k' ≠ k) :
    mapGet (mapDelete m k) k' = mapGet m k' := by
  induction m with
  | nil => simp [mapDelete]
  | cons p t ih =>
    rw [mapDelete_cons]
    by_cases hp : p.1 = k
    · rw [if_pos hp, mapGet_cons, if_neg (hp ▸ Ne.symm h)]
    · rw [if_neg hp, mapGet_cons, mapGet_cons]
      by_cases hp' : p.1 = k'
      · rw [if_pos hp', if_pos hp']
      · rw [if_neg hp', if_neg hp']
        exact ih

/-- Writing preserves distinctness of keys. -/
theorem mapSet_keys_nodup (m : JsMap α) (k : String) (v : α)
    (h : (m.map Prod.fst).Nodup) : ((mapSet m k v).map Prod.fst).Nodup := by
  by_cases hm : k ∈ m.map Prod.fst
  · rw [mapSet_keys_of_mem m k v hm]; exact h
  · have : mapGet m k = none := mapGet_eq_none_of_not_mem m k hm
    rw [mapSet_keys_of_not_mem m k v this]
    rw [List.nodup_append]
    refine ⟨h, List.nodup_singleton k, ?_⟩
    intro a ha hk
    exact hm ((List.mem_singleton.mp hk) ▸ ha)

/-- A delete yields a sublist of the original association list. -/
theorem mapDelete_sublist (m : JsMap α) (k : String) :
    (mapDelete m k).Sublist m := by
  induction m with
  | nil => simp [mapDelete]
  | cons p t ih =>
    rw [mapDelete_cons]
    by_cases hp : p.1 = k
    · rw [if_pos hp]; exact List.sublist_cons_self p t
    · rw [if_neg hp]; exact List.Sublist.cons₂ p ih

/-- Deleting preserves distinctness of keys. -/
theorem mapDelete_keys_nodup (m : JsMap α) (k : String)
    (h : (m.map Prod.fst).Nodup) : ((mapDelete m k).map Prod.fst).Nodup :=
  h.sublist (List.Sublist.map Prod.fst (mapDelete_sublist m k))

/-- The memory write path preserves distinctness of keys. -/
theorem setInMemory_keys_nodup (o : CacheOptions) (m : MemoryCache U)
    (key : String) (entry : CacheEntry U) (h : (m.map Prod.fst).Nodup) :
    ((Cache.setInMemory o m key entry).map Prod.fst).Nodup := by
  unfold Cache.setInMemory
  apply mapSet_keys_nodup
  by_cases hl : m.length ≥ o.rMaxEntries
  · rw [if_pos hl]
    cases m with
    | nil => simp
    | cons p t => exact mapDelete_keys_nodup _ _ h
  · rw [if_neg hl]
    exact h

/-- A filtered association list has no binding for a key rejected by the
filter. -/
theorem mapGet_filter_eq_none (m : JsMap α) (f : String → Bool) (k : String)
    (h : f k = false) : mapGet (m.filter (fun p => f p.1)) k = none := by
  induction m with
  | nil => simp [mapGet]
  | cons p t ih =>
    by_cases hp : f p.1
    · rw [List.filter_cons_of_pos (by simpa using hp), mapGet_cons]
      have : p.1 ≠ k := fun he => by rw [he, h] at hp; exact Bool.noConfusion hp
      rw [if_neg this]
      exact ih
    · rw [List.filter_cons_of_neg (by simpa using hp)]
      exact ih

/-- The namespaced storage key always carries the `cache_` prefix. -/
theorem jsStartsWith_lsKeyOf (k : String) :
    jsStartsWith (lsKeyOf k) "cache_" = true := by
  have : (lsKeyOf k).data = "cache_".data ++ k.data := by
    simp [lsKeyOf]
  simp only [jsStartsWith, this]
  exact List.isPrefixOf_iff_prefix.mpr (List.prefix_append _ _)

/-- C9: for every cache, `set(k, v)` followed immediately by `get(k)` (same
`Date.now()`, which is before the entry's expiry whenever the effective TTL
is nonnegative) returns `v`, on both the memory backend and the persistent
backend (the write itself succeeding, i.e. no quota failure). -/
theorem c9_roundtrip {U : Type} (o : CacheOptions) (m : MemoryCache U)
    (ls : LocalStorageState U) (now : Int) (k : String) (u : U)
    (customTtl : Option Int) (hTtl : 0 ≤ o.effTtl customTtl) :
    (Cache.get o (Cache.set o m ls false now k (some u) customTtl).1
      (Cache.set o m ls false now k (some u) customTtl).2 now k).1 = some u := by
  have hexp : ¬ (now > now + o.effTtl customTtl) := by omega
  rcases hS : o.rStorage with _ | _
  · simp [Cache.set, Cache.setInMemory, Cache.get, hS, mapGet_mapSet_self, hexp]
  · simp [Cache.set, Cache.setInLocalStorage, Cache.get, Cache.getFromLocalStorage, hS,
      mapGet_mapSet_self, hexp]

/-- Witness for `c9_roundtrip` at concrete inputs. -/
theorem c9_witness :
    0 ≤ oMem2.effTtl none ∧
    (Cache.get oMem2 (Cache.set (U := Nat) oMem2 [] [] false 0 "k" (some 5) none).1
      (Cache.set (U := Nat) oMem2 [] [] false 0 "k" (some 5) none).2 0 "k").1 = some 5 :=
  ⟨by decide, c9_roundtrip oMem2 [] [] 0 "k" 5 none (by decide)⟩

/-- C8: after `set(k, v, t)` with `t > 0` the entry's `expiresAt` is
`now + t`; a `get(k)` once the current time strictly exceeds `expiresAt`
returns absent and, as a side effect, deletes the entry from the backend
(lazy eviction), while a `get(k)` at a time not past `expiresAt` returns the
stored payload.  Stated for both backends (quota failures excluded). -/
theorem c8_expiry {U : Type} (o : CacheOptions) (m : MemoryCache U)
    (ls : LocalStorageState U) (hN : (m.map Prod.fst).Nodup)
    (hNls : (ls.map Prod.fst).Nodup) (now t : Int) (hT : 0 < t)
    (k : String) (u : U) (now2 now3 : Int) (h2 : now + t < now2)
    (h3 : now3 ≤ now + t) :
    (Cache.get o (Cache.set o m ls false now k (some u) (some t)).1
      (Cache.set o m ls false now k (some u) (some t)).2 now2 k).1 = none ∧
    Cache.lookupBackend o
      (Cache.get o (Cache.set o m ls false now k (some u) (some t)).1
        (Cache.set o m ls false now k (some u) (some t)).2 now2 k).2.1
      (Cache.get o (Cache.set o m ls false now k (some u) (some t)).1
        (Cache.set o m ls false now k (some u) (some t)).2 now2 k).2.2 k = none ∧
    (Cache.get o (Cache.set o m ls false now k (some u) (some t)).1
      (Cache.set o m ls false now k (some u) (some t)).2 now3 k).1 = some u := by
  have hEff : o.effTtl (some t) = t := by
    have ht' : ¬ t = 0 := by omega
    simp [CacheOptions.effTtl, ht']
  have hexp2 : now + o.effTtl (some t) < now2 := by rw [hEff]; omega
  have hexp3 : ¬ (now3 > now + o.effTtl (some t)) := by rw [hEff]; omega
  rcases hS : o.rStorage with _ | _
  · have hnodup : (((Cache.set o m ls false now k (some u) (some t)).1).map Prod.fst).Nodup := by
      simp only [Cache.set, hS]
      simpa using setInMemory_keys_nodup o m k _ hN
    constructor
    · simp [Cache.set, Cache.setInMemory, Cache.get, hS, mapGet_mapSet_self, hexp2]
    constructor
    · simp only [Cache.set, hS] at hnodup ⊢
      simp only [Cache.get, Cache.lookupBackend, Cache.delete, hS]
      simp [Cache.setInMemory, mapGet_mapSet_self, hexp2,
        mapGet_mapDelete_self _ _ (by simpa [Cache.setInMemory] using hnodup)]
    · simp [Cache.set, Cache.setInMemory, Cache.get, hS, mapGet_mapSet_self, hexp3]
  · have hnodup : (((Cache.set o m ls false now k (some u) (some t)).2).map Prod.fst).Nodup := by
      simp only [Cache.set, Cache.setInLocalStorage, hS]
      simpa using mapSet_keys_nodup ls (lsKeyOf k) _ hNls
    constructor
    · simp [Cache.set, Cache.setInLocalStorage, Cache.get, Cache.getFromLocalStorage, hS,
        mapGet_mapSet_self, hexp2]
    constructor
    · simp only [Cache.set, Cache.setInLocalStorage, hS] at hnodup ⊢
      simp only [Cache.get, Cache.lookupBackend, Cache.delete, Cache.getFromLocalStorage, hS]
      simp [mapGet_mapSet_self, hexp2,
        mapGet_mapDelete_self _ _ (by simpa using hnodup)]
    · simp [Cache.set, Cache.setInLocalStorage, Cache.get, Cache.getFromLocalStorage, hS,
        mapGet_mapSet_self, hexp3]

/-- Witness for `c8_expiry` at concrete inputs. -/
theorem c8_witness :
    ((([] : MemoryCache Nat).map Prod.fst).Nodup ∧
      (([] : LocalStorageState Nat).map Prod.fst).Nodup ∧
      (0 : Int) < 10 ∧ (0 : Int) + 10 < 11 ∧ (10 : Int) ≤ 0 + 10) ∧
    ((Cache.get oMem2 (Cache.set (U := Nat) oMem2 [] [] false 0 "k" (some 5) (some 10)).1
      (Cache.set (U := Nat) oMem2 [] [] false 0 "k" (some 5) (some 10)).2 11 "k").1 = none ∧
    Cache.lookupBackend oMem2
      (Cache.get oMem2 (Cache.set (U := Nat) oMem2 [] [] false 0 "k" (some 5) (some 10)).1
        (Cache.set (U := Nat) oMem2 [] [] false 0 "k" (some 5) (some 10)).2 11 "k").2.1
      (Cache.get oMem2 (Cache.set (U := Nat) oMem2 [] [] false 0 "k" (some 5) (some 10)).1
        (Cache.set (U := Nat) oMem2 [] [] false 0 "k" (some 5) (some 10)).2 11 "k").2.2 "k" = none ∧
    (Cache.get oMem2 (Cache.set (U := Nat) oMem2 [] [] false 0 "k" (some 5) (some 10)).1
      (Cache.set (U := Nat) oMem2 [] [] false 0 "k" (some 5) (some 10)).2 10 "k").1 = some 5) :=
  ⟨⟨by decide, by decide, by decide, by decide, by decide⟩,
   c8_expiry oMem2 [] [] (by decide) (by decide) 0 10 (by decide) "k" 5 11 10
     (by decide) (by decide)⟩

/-- C10: the cache cannot represent a stored `null` payload as present —
after `set(k, null)` the entry is physically stored in the backend and
unexpired, yet `get(k)` returns the same `null` sentinel as a true miss, and
`getOrSet(k, producer)` therefore invokes the producer. -/
theorem c10_null_payload {U ε : Type} (o : CacheOptions) (m : MemoryCache U)
    (ls : LocalStorageState U) (now : Int) (k : String)
    (producer : Except ε (Option U)) (customTtl : Option Int)
    (hTtl : 0 ≤ o.effTtl customTtl) :
    (Cache.get o (Cache.set o m ls false now k none customTtl).1
      (Cache.set o m ls false now k none customTtl).2 now k).1 = none ∧
    Cache.lookupBackend o (Cache.set o m ls false now k none customTtl).1
      (Cache.set o m ls false now k none customTtl).2 k =
      some { data := none, timestamp := now,
             expiresAt := now + o.effTtl customTtl, key := k } ∧
    (Cache.getOrSet o (Cache.set o m ls false now k none customTtl).1
      (Cache.set o m ls false now k none customTtl).2 false now k
      producer customTtl).2.2.2 = true := by
  have hexp : ¬ (now > now + o.effTtl customTtl) := by omega
  rcases hS : o.rStorage with _ | _
  · refine ⟨?_, ?_, ?_⟩
    · simp [Cache.set, Cache.setInMemory, Cache.get, hS, mapGet_mapSet_self, hexp]
    · simp [Cache.set, Cache.setInMemory, Cache.lookupBackend, hS, mapGet_mapSet_self]
    · cases producer <;>
        simp [Cache.set, Cache.setInMemory, Cache.getOrSet, Cache.get, hS,
          mapGet_mapSet_self, hexp]
  · refine ⟨?_, ?_, ?_⟩
    · simp [Cache.set, Cache.setInLocalStorage, Cache.get, Cache.getFromLocalStorage, hS,
        mapGet_mapSet_self, hexp]
    · simp [Cache.set, Cache.setInLocalStorage, Cache.lookupBackend, hS, mapGet_mapSet_self]
    · cases producer <;>
        simp [Cache.set, Cache.setInLocalStorage, Cache.getOrSet, Cache.get,
          Cache.getFromLocalStorage, hS, mapGet_mapSet_self, hexp]

/-- Witness for `c10_null_payload` at concrete inputs. -/
theorem c10_witness :
    0 ≤ oMem2.effTtl none ∧
    ((Cache.get oMem2 (Cache.set (U := Nat) oMem2 [] [] false 0 "k" none none).1
      (Cache.set (U := Nat) oMem2 [] [] false 0 "k" none none).2 0 "k").1 = none ∧
    Cache.lookupBackend oMem2 (Cache.set (U := Nat) oMem2 [] [] false 0 "k" none none).1
      (Cache.set (U := Nat) oMem2 [] [] false 0 "k" none none).2 "k" =
      some { data := none, timestamp := 0, expiresAt := 0 + oMem2.effTtl none, key := "k" } ∧
    (Cache.getOrSet oMem2 (Cache.set (U := Nat) oMem2 [] [] false 0 "k" none none).1
      (Cache.set (U := Nat) oMem2 [] [] false 0 "k" none none).2 false 0 "k"
      (Except.ok (ε := String) (some 9)) none).2.2.2 = true) :=
  ⟨by decide, c10_null_payload oMem2 [] [] 0 "k" (Except.ok (some 9)) none (by decide)⟩


/-- Unfolding of `Cache.get` through the `lookupBackend` observer. -/
theorem get_eq {U : Type} (o : CacheOptions) (m : MemoryCache U)
    (ls : LocalStorageState U) (now : Int) (k : String) :
    Cache.get o m ls now k =
      match Cache.lookupBackend o m ls k with
      | none => (none, m, ls)
      | some e =>
        if now > e.expiresAt then
          (none, (Cache.delete o m ls k).1, (Cache.delete o m ls k).2)
        else (e.data, m, ls) := rfl

/-- After a `delete` of `key` (on distinct keys) the backend holds nothing
under `key`. -/
theorem lookupBackend_delete_self {U : Type} (o : CacheOptions)
    (m : MemoryCache U) (ls : LocalStorageState U) (k : String)
    (hN : (m.map Prod.fst).Nodup) (hNls : (ls.map Prod.fst).Nodup) :
    Cache.lookupBackend o (Cache.delete o m ls k).1 (Cache.delete o m ls k).2 k
      = none := by
  unfold Cache.lookupBackend Cache.delete
  rcases hS : o.rStorage with _ | _
  · simp [hS, mapGet_mapDelete_self m k hN]
  · simp [hS, mapGet_mapDelete_self ls (lsKeyOf k) hNls]

/-- On a hit (non-null result) `get` leaves both backends untouched. -/
theorem get_some_state {U : Type} (o : CacheOptions) (m : MemoryCache U)
    (ls : LocalStorageState U) (now : Int) (k : String) (u : U)
    (h : (Cache.get o m ls now k).1 = some u) :
    Cache.get o m ls now k = (some u, m, ls) := by
  rcases he : Cache.lookupBackend o m ls k with _ | e
  · simp [get_eq, he] at h
  · by_cases hx : now > e.expiresAt
    · simp [get_eq, he, hx] at h
    · simp [get_eq, he, hx] at h ⊢
      exact h

/-- After a miss, the key still reads as absent at any later probe of the
post-`get` state: the miss was a true absence (state unchanged), a lazy
eviction (entry now deleted), or a stored-null entry (which reads as null
again). -/
theorem get_none_again {U : Type} (o : CacheOptions) (m : MemoryCache U)
    (ls : LocalStorageState U) (hN : (m.map Prod.fst).Nodup)
    (hNls : (ls.map Prod.fst).Nodup) (now now' : Int) (k : String)
    (h : (Cache.get o m ls now k).1 = none) :
    (Cache.get o (Cache.get o m ls now k).2.1
      (Cache.get o m ls now k).2.2 now' k).1 = none := by
  rcases he : Cache.lookupBackend o m ls k with _ | e
  · simp [get_eq, he]
  · by_cases hx : now > e.expiresAt
    · simp only [get_eq, he, if_pos hx]
      simp [get_eq, lookupBackend_delete_self o m ls k hN hNls]
    · simp only [get_eq, he, if_neg hx] at h ⊢
      by_cases hx' : now' > e.expiresAt
      · simp [he, if_pos hx']
      · simp [he, if_neg hx']
        exact h

/-- C7: `getOrSet` on a present, unexpired, non-null entry returns the
cached value without invoking the producer and leaves the cache untouched;
when the producer is invoked and fails, the error propagates unchanged (no
masking, no retry), the failing path performs no write (the final state is
exactly the state after the embedded `get`), and nothing is retrievable
under the key afterwards. -/
theorem c7_getOrSet_semantics {U ε : Type} (o : CacheOptions) (q : Bool)
    (ttl1 ttl2 : Option Int)
    (m1 : MemoryCache U) (ls1 : LocalStorageState U) (now1 : Int) (k1 : String)
    (u : U) (producer1 : Except ε (Option U))
    (hHit : (Cache.get o m1 ls1 now1 k1).1 = some u)
    (m2 : MemoryCache U) (ls2 : LocalStorageState U)
    (hN2 : (m2.map Prod.fst).Nodup) (hNls2 : (ls2.map Prod.fst).Nodup)
    (now2 now3 : Int) (k2 : String) (e : ε)
    (hMiss : (Cache.get o m2 ls2 now2 k2).1 = none) :
    Cache.getOrSet o m1 ls1 q now1 k1 producer1 ttl1 =
      (Except.ok (some u), m1, ls1, false) ∧
    Cache.getOrSet o m2 ls2 q now2 k2 (Except.error e) ttl2 =
      (Except.error e, (Cache.get o m2 ls2 now2 k2).2.1,
        (Cache.get o m2 ls2 now2 k2).2.2, true) ∧
    (Cache.get o (Cache.get o m2 ls2 now2 k2).2.1
      (Cache.get o m2 ls2 now2 k2).2.2 now3 k2).1 = none := by
  refine ⟨?_, ?_, get_none_again o m2 ls2 hN2 hNls2 now2 now3 k2 hMiss⟩
  · have h1 := get_some_state o m1 ls1 now1 k1 u hHit
    simp [Cache.getOrSet, h1]
  · simp [Cache.getOrSet, hMiss]

/-- Witness for `c7_getOrSet_semantics` at concrete inputs. -/
theorem c7_witness :
    ((Cache.get oMem2 [("k", ⟨some 5, 0, 1000, "k"⟩)] [] 0 "k").1 = some 5 ∧
      (([] : MemoryCache Nat).map Prod.fst).Nodup ∧
      (([] : LocalStorageState Nat).map Prod.fst).Nodup ∧
      (Cache.get oMem2 ([] : MemoryCache Nat) [] 0 "x").1 = none) ∧
    (Cache.getOrSet (ε := String) oMem2 [("k", ⟨some 5, 0, 1000, "k"⟩)] [] false 0 "k"
        (Except.ok (some 9)) none =
      (Except.ok (some 5), [("k", ⟨some 5, 0, 1000, "k"⟩)], [], false) ∧
    Cache.getOrSet (ε := String) oMem2 [] [] false 0 "x" (Except.error "boom") none =
      (Except.error "boom", (Cache.get oMem2 ([] : MemoryCache Nat) [] 0 "x").2.1,
        (Cache.get oMem2 ([] : MemoryCache Nat) [] 0 "x").2.2, true) ∧
    (Cache.get oMem2 (Cache.get oMem2 ([] : MemoryCache Nat) [] 0 "x").2.1
      (Cache.get oMem2 ([] : MemoryCache Nat) [] 0 "x").2.2 7 "x").1 = none) :=
  ⟨⟨by decide, by decide, by decide, by decide⟩,
   c7_getOrSet_semantics oMem2 false none none [("k", ⟨some 5, 0, 1000, "k"⟩)] [] 0 "k"
     5 (Except.ok (some 9)) (by decide) [] [] (by decide) (by decide) 0 7 "x" "boom"
     (by decide)⟩

/-- C2 counterexample: with the persistent write failing (quota full), `set`
stores the entry in the instance's memory map and does not throw, but the
very next `get` — well before the entry's expiry at 1000 — returns absent,
because `get` on a localStorage-backed cache reads only the persistent
store.  This refutes the claim that the degraded entry "remains retrievable
by a subsequent get". -/
theorem c2_counterexample :
    (Cache.set (U := Nat) oLS1 [] [] true 0 "k" (some 7) none).2 = [] ∧
    mapGet (Cache.set (U := Nat) oLS1 [] [] true 0 "k" (some 7) none).1 "k" =
      some ⟨some 7, 0, 1000, "k"⟩ ∧
    (Cache.get oLS1 (Cache.set (U := Nat) oLS1 [] [] true 0 "k" (some 7) none).1
      (Cache.set (U := Nat) oLS1 [] [] true 0 "k" (some 7) none).2 1 "k").1 = none := by
  decide

/-- C2 (amended): when the persistent write fails, `set(key, data)` does not
raise (the catch branch runs) and stores the entry in the instance's memory
map, leaving the persistent store unchanged and never retrying it; but the
degraded entry is not retrievable: a subsequent `get(key)` reads only the
persistent store and returns absent. -/
theorem c2_degraded_write {U : Type} (o : CacheOptions)
    (hS : o.rStorage = .localStorage) (m : MemoryCache U)
    (ls : LocalStorageState U) (now : Int) (k : String) (u : U)
    (customTtl : Option Int) (hAbsent : mapGet ls (lsKeyOf k) = none)
    (now2 : Int) :
    (Cache.set o m ls true now k (some u) customTtl).2 = ls ∧
    mapGet (Cache.set o m ls true now k (some u) customTtl).1 k =
      some { data := some u, timestamp := now,
             expiresAt := now + o.effTtl customTtl, key := k } ∧
    (Cache.get o (Cache.set o m ls true now k (some u) customTtl).1
      (Cache.set o m ls true now k (some u) customTtl).2 now2 k).1 = none := by
  have hset2 : (Cache.set o m ls true now k (some u) customTtl).2 = ls := by
    simp [Cache.set, Cache.setInLocalStorage, hS]
  refine ⟨hset2, ?_, ?_⟩
  · simp [Cache.set, Cache.setInLocalStorage, hS, Cache.setInMemory, mapGet_mapSet_self]
  · rw [hset2]
    have hlb : Cache.lookupBackend o
        (Cache.set o m ls true now k (some u) customTtl).1 ls k = none := by
      unfold Cache.lookupBackend
      rw [if_pos hS]
      exact hAbsent
    rw [get_eq, hlb]

/-- Witness for `c2_degraded_write` at concrete inputs. -/
theorem c2_witness :
    (oLS1.rStorage = .localStorage ∧
      mapGet ([] : LocalStorageState Nat) (lsKeyOf "a") = none) ∧
    ((Cache.set (U := Nat) oLS1 [] [] true 3 "a" (some 4) none).2 = [] ∧
    mapGet (Cache.set (U := Nat) oLS1 [] [] true 3 "a" (some 4) none).1 "a" =
      some { data := some 4, timestamp := 3,
             expiresAt := 3 + oLS1.effTtl none, key := "a" } ∧
    (Cache.get oLS1 (Cache.set (U := Nat) oLS1 [] [] true 3 "a" (some 4) none).1
      (Cache.set (U := Nat) oLS1 [] [] true 3 "a" (some 4) none).2 5 "a").1 = none) :=
  ⟨⟨by decide, by decide⟩,
   c2_degraded_write oLS1 (by decide) [] [] 3 "a" 4 none (by decide) 5⟩

/-- Filtering by a predicate after keeping only its complement is empty. -/
theorem filter_not_then_filter {α : Type} (l : List α) (p : α → Bool) :
    (l.filter (fun a => !(p a))).filter p = [] := by
  induction l with
  | nil => rfl
  | cons a t ih => by_cases h : p a <;> simp [h, ih]

/-- C1 counterexample: two localStorage-backed instances share the store;
after instance A wrote key "a" and instance B wrote key "b",
A's `getStats().size` is 2 (it counts B's key as well), and after A's
`clear()` B's entry is gone: B's `get "b"` returns absent.  This refutes the
claim that `clear` removes only the calling instance's entries and that
`getStats` counts only the instance's own keys. -/
theorem c1_counterexample :
    Cache.getStats oLS1 ([] : MemoryCache Nat)
      (Cache.set (U := Nat) oLS1 []
        (Cache.set (U := Nat) oLS1 [] [] false 0 "a" (some 10) none).2
        false 0 "b" (some 20) none).2 = 2 ∧
    (Cache.get oLS1 ([] : MemoryCache Nat)
      (Cache.clear oLS1 ([] : MemoryCache Nat)
        (Cache.set (U := Nat) oLS1 []
          (Cache.set (U := Nat) oLS1 [] [] false 0 "a" (some 10) none).2
          false 0 "b" (some 20) none).2).2
      0 "b").1 = none := by
  decide

/-- C1 (amended): the namespace prefix `cache_` is global, not
per-instance: `clear()` on any localStorage-backed instance removes every
`cache_`-prefixed key of the shared store, so afterwards every
localStorage-backed instance's `get` misses on every key and every such
instance's `getStats().size` — which counts all `cache_`-prefixed keys of
the shared store, whichever instance wrote them — is 0. -/
theorem c1_clear_removes_all {U : Type} (o o' : CacheOptions)
    (hS : o.rStorage = .localStorage) (hS' : o'.rStorage = .localStorage)
    (m m' : MemoryCache U) (ls : LocalStorageState U) (now : Int) (k : String) :
    (Cache.get o' m' (Cache.clear o m ls).2 now k).1 = none ∧
    Cache.getStats o' m' (Cache.clear o m ls).2 = 0 := by
  have hcl : (Cache.clear o m ls).2 =
      ls.filter (fun p => !(jsStartsWith p.1 "cache_")) := by
    simp [Cache.clear, hS]
  constructor
  · rw [hcl]
    have hlb : Cache.lookupBackend o' m'
        (ls.filter (fun p => !(jsStartsWith p.1 "cache_"))) k = none := by
      unfold Cache.lookupBackend
      rw [if_pos hS']
      exact mapGet_filter_eq_none ls (fun s => !(jsStartsWith s "cache_"))
        (lsKeyOf k) (by simp [jsStartsWith_lsKeyOf])
    rw [get_eq, hlb]
  · rw [hcl]
    unfold Cache.getStats
    rw [if_pos hS']
    simp only [filter_not_then_filter ls (fun pr => jsStartsWith pr.1 "cache_")]
    rfl

/-- Witness for `c1_clear_removes_all` at concrete inputs. -/
theorem c1_witness :
    (oLS1.rStorage = .localStorage ∧ oLS1.rStorage = .localStorage) ∧
    ((Cache.get oLS1 ([] : MemoryCache Nat)
      (Cache.clear oLS1 ([] : MemoryCache Nat)
        [("cache_b", (⟨some 20, 0, 1000, "b"⟩ : CacheEntry Nat))]).2 0 "b").1 = none ∧
    Cache.getStats oLS1 ([] : MemoryCache Nat)
      (Cache.clear oLS1 ([] : MemoryCache Nat)
        [("cache_b", (⟨some 20, 0, 1000, "b"⟩ : CacheEntry Nat))]).2 = 0) :=
  ⟨⟨by decide, by decide⟩,
   c1_clear_removes_all oLS1 oLS1 (by decide) (by decide) [] []
     [("cache_b", ⟨some 20, 0, 1000, "b"⟩)] 0 "b"⟩

/-- The resolved `maxEntries` is always at least 1 (`0` is falsy and falls
back to the default 100). -/
theorem rMaxEntries_pos (o : CacheOptions) : 1 ≤ o.rMaxEntries := by
  unfold CacheOptions.rMaxEntries
  rcases o.maxEntries with _ | n
  · simp
  · by_cases h : n = 0
    · simp [h]
    · simp only [h, if_false]
      omega

/-- At capacity, `setInMemory` on a non-empty map deletes the head
(first-inserted) entry and then writes. -/
theorem setInMemory_at_cap {U : Type} (o : CacheOptions)
    (p : String × CacheEntry U) (t : MemoryCache U)
    (hLen : (p :: t).length ≥ o.rMaxEntries) (key : String) (e : CacheEntry U) :
    Cache.setInMemory o (p :: t) key e = mapSet t key e := by
  unfold Cache.setInMemory
  rw [if_pos hLen]
  simp only [List.head?]
  rw [mapDelete_cons, if_pos rfl]

/-- Below capacity, inserting pairwise-distinct fresh keys just appends
them, in order. -/
theorem foldl_setInMemory_under_cap {U : Type} (o : CacheOptions)
    (ent : String → CacheEntry U) :
    ∀ (ks : List String) (m : MemoryCache U),
      (m.map Prod.fst ++ ks).Nodup → m.length + ks.length ≤ o.rMaxEntries →
      ((ks.foldl (fun mm kk => Cache.setInMemory o mm kk (ent kk)) m).map
        Prod.fst) = m.map Prod.fst ++ ks := by
  intro ks
  induction ks with
  | nil =>
    intro m _ _
    simp
  | cons kk t ih =>
    intro m hnd hlen
    simp only [List.foldl_cons]
    have hkk_not : kk ∉ m.map Prod.fst := by
      intro hmem
      exact (List.disjoint_of_nodup_append hnd) hmem (List.mem_cons_self kk t)
    have hlt : ¬ (m.length ≥ o.rMaxEntries) := by
      simp only [List.length_cons] at hlen
      omega
    have hstep : Cache.setInMemory o m kk (ent kk) = mapSet m kk (ent kk) := by
      unfold Cache.setInMemory
      rw [if_neg hlt]
    rw [hstep]
    have hkeys : (mapSet m kk (ent kk)).map Prod.fst = m.map Prod.fst ++ [kk] :=
      mapSet_keys_of_not_mem m kk _ (mapGet_eq_none_of_not_mem m kk hkk_not)
    have hlen' : (mapSet m kk (ent kk)).length + t.length ≤ o.rMaxEntries := by
      have h1 : (mapSet m kk (ent kk)).length = m.length + 1 := by
        have := congrArg List.length hkeys
        simpa using this
      simp only [List.length_cons] at hlen
      omega
    have hnd' : ((mapSet m kk (ent kk)).map Prod.fst ++ t).Nodup := by
      rw [hkeys, List.append_assoc]
      simpa using hnd
    rw [ih (mapSet m kk (ent kk)) hnd' hlen', hkeys, List.append_assoc]
    rfl

/-- C4 (amended): the capacity check in `setInMemory` runs before the key is
looked up, so at capacity the oldest-inserted entry is evicted regardless of
whether the key is new: (i) with a new key, exactly the oldest entry is
evicted and the new key appended; (ii) with an already-present key (other
than the oldest), the oldest entry is evicted as well — the claim's "evicts
nothing" fails; (iii) inserting `maxEntries + 1` distinct keys into a fresh
memory cache leaves exactly `maxEntries` live keys, with the first-inserted
key evicted. -/
theorem c4_eviction_semantics {U : Type} (o : CacheOptions)
    (hS : o.rStorage = .memory) (ls : LocalStorageState U) (now : Int)
    (ttl : Option Int) (p : String × CacheEntry U) (t : MemoryCache U)
    (hN : (((p :: t) : MemoryCache U).map Prod.fst).Nodup)
    (hLen : (p :: t).length ≥ o.rMaxEntries)
    (k : String) (hNew : mapGet (p :: t) k = none) (v : Option U)
    (k' : String) (hOld : k' ∈ t.map Prod.fst) (v' : Option U)
    (ks : List String) (hKs : ks.length = o.rMaxEntries + 1)
    (hKsN : ks.Nodup) :
    (Cache.set o (p :: t) ls false now k v ttl).1.map Prod.fst
      = t.map Prod.fst ++ [k] ∧
    ((Cache.set o (p :: t) ls false now k' v' ttl).1.map Prod.fst
        = t.map Prod.fst ∧
      mapGet (Cache.set o (p :: t) ls false now k' v' ttl).1 p.1 = none) ∧
    (ks.foldl (fun mm kk => (Cache.set o mm ls false now kk none ttl).1)
        ([] : MemoryCache U)).map Prod.fst = ks.tail := by
  have hSne : ¬ (o.rStorage = CacheStorage.localStorage) := by
    rw [hS]
    intro h
    exact CacheStorage.noConfusion h
  have hset1 : ∀ (m : MemoryCache U) (key : String) (dv : Option U),
      (Cache.set o m ls false now key dv ttl).1 =
        Cache.setInMemory o m key
          ⟨dv, now, now + o.effTtl ttl, key⟩ := by
    intro m key dv
    simp only [Cache.set, if_neg hSne]
  simp only [List.map_cons, List.nodup_cons] at hN
  have hp_not : p.1 ∉ t.map Prod.fst := hN.1
  refine ⟨?_, ⟨?_, ?_⟩, ?_⟩
  · rw [hset1, setInMemory_at_cap o p t hLen]
    rw [mapGet_cons] at hNew
    by_cases hpk : p.1 = k
    · rw [if_pos hpk] at hNew
      exact absurd hNew (by simp)
    · rw [if_neg hpk] at hNew
      exact mapSet_keys_of_not_mem t k _ hNew
  · rw [hset1, setInMemory_at_cap o p t hLen]
    exact mapSet_keys_of_mem t k' _ hOld
  · rw [hset1, setInMemory_at_cap o p t hLen]
    have hk'p : p.1 ≠ k' := by
      intro h
      exact hp_not (h ▸ hOld)
    rw [mapGet_mapSet_ne t k' p.1 _ hk'p]
    exact mapGet_eq_none_of_not_mem t p.1 hp_not
  · have hfn : (fun (mm : MemoryCache U) kk =>
          (Cache.set o mm ls false now kk none ttl).1) =
        (fun mm kk => Cache.setInMemory o mm kk
          ⟨none, now, now + o.effTtl ttl, kk⟩) := by
      funext mm kk
      exact hset1 mm kk none
    rw [hfn]
    have hne : ks ≠ [] := by
      intro h
      rw [h] at hKs
      simp at hKs
    obtain ⟨A, b, hsplit⟩ : ∃ A b, ks = A ++ [b] :=
      ⟨ks.dropLast, ks.getLast hne, (List.dropLast_append_getLast hne).symm⟩
    subst hsplit
    have hAnd : (A ++ [b]).Nodup := hKsN
    have hAlen : A.length = o.rMaxEntries := by
      simp only [List.length_append, List.length_cons, List.length_nil] at hKs
      omega
    have hb_not : b ∉ A := by
      intro hmem
      exact (List.disjoint_of_nodup_append hAnd) hmem (by simp)
    rw [List.foldl_append]
    have hfill := foldl_setInMemory_under_cap o
      (fun kk => (⟨none, now, now + o.effTtl ttl, kk⟩ : CacheEntry U))
      A ([] : MemoryCache U)
      (by simpa using (List.sublist_append_left A [b]).nodup hAnd)
      (by simp [hAlen])
    simp only [List.map_nil, List.nil_append] at hfill
    cases hMc : A.foldl (fun mm kk => Cache.setInMemory o mm kk
        ⟨none, now, now + o.effTtl ttl, kk⟩) ([] : MemoryCache U) with
    | nil =>
      rw [hMc] at hfill
      simp only [List.map_nil] at hfill
      rw [← hfill] at hAlen
      have := rMaxEntries_pos o
      simp at hAlen
      omega
    | cons m0 mt =>
      rw [hMc] at hfill
      simp only [List.map_cons] at hfill
      have hMcap : (m0 :: mt).length ≥ o.rMaxEntries := by
        have := congrArg List.length hfill
        simp only [List.length_cons, List.length_map] at this
        simp only [List.length_cons]
        omega
      simp only [List.foldl_cons, List.foldl_nil]
      rw [setInMemory_at_cap o m0 mt hMcap]
      have hb_not_mt : b ∉ mt.map Prod.fst := by
        intro hmem
        apply hb_not
        rw [← hfill]
        exact List.mem_cons_of_mem _ hmem
      rw [mapSet_keys_of_not_mem mt b _
        (mapGet_eq_none_of_not_mem mt _ hb_not_mt)]
      rw [← hfill]
      simp

/-- Witness for `c4_eviction_semantics` at concrete inputs. -/
theorem c4_witness :
    (oMem2.rStorage = .memory ∧
      ((([("a", (⟨some 1, 0, 1000, "a"⟩ : CacheEntry Nat)),
          ("b", ⟨some 2, 0, 1000, "b"⟩)] : MemoryCache Nat)).map Prod.fst).Nodup ∧
      ([("a", (⟨some 1, 0, 1000, "a"⟩ : CacheEntry Nat)),
        ("b", ⟨some 2, 0, 1000, "b"⟩)] : MemoryCache Nat).length ≥ oMem2.rMaxEntries ∧
      mapGet ([("a", (⟨some 1, 0, 1000, "a"⟩ : CacheEntry Nat)),
        ("b", ⟨some 2, 0, 1000, "b"⟩)] : MemoryCache Nat) "c" = none ∧
      "b" ∈ ([("b", (⟨some 2, 0, 1000, "b"⟩ : CacheEntry Nat))].map Prod.fst) ∧
      (["x", "y", "z"] : List String).length = oMem2.rMaxEntries + 1 ∧
      (["x", "y", "z"] : List String).Nodup) ∧
    ((Cache.set oMem2 [("a", (⟨some 1, 0, 1000, "a"⟩ : CacheEntry Nat)),
        ("b", ⟨some 2, 0, 1000, "b"⟩)] [] false 0 "c" (some 3) none).1.map Prod.fst
      = [("b", (⟨some 2, 0, 1000, "b"⟩ : CacheEntry Nat))].map Prod.fst ++ ["c"] ∧
    ((Cache.set oMem2 [("a", (⟨some 1, 0, 1000, "a"⟩ : CacheEntry Nat)),
        ("b", ⟨some 2, 0, 1000, "b"⟩)] [] false 0 "b" (some 9) none).1.map Prod.fst
        = [("b", (⟨some 2, 0, 1000, "b"⟩ : CacheEntry Nat))].map Prod.fst ∧
      mapGet (Cache.set oMem2 [("a", (⟨some 1, 0, 1000, "a"⟩ : CacheEntry Nat)),
        ("b", ⟨some 2, 0, 1000, "b"⟩)] [] false 0 "b" (some 9) none).1 "a" = none) ∧
    ((["x", "y", "z"] : List String).foldl
        (fun mm kk => (Cache.set oMem2 mm [] false 0 kk none none).1)
        ([] : MemoryCache Nat)).map Prod.fst = (["x", "y", "z"] : List String).tail) :=
  ⟨⟨by decide, by decide, by decide, by decide, by decide, by decide, by decide⟩,
   c4_eviction_semantics oMem2 (by decide) [] 0 none
     ("a", ⟨some 1, 0, 1000, "a"⟩) [("b", ⟨some 2, 0, 1000, "b"⟩)]
     (by decide) (by decide) "c" (by decide) (some 3) "b" (by decide) (some 9)
     ["x", "y", "z"] (by decide) (by decide)⟩

/-- The chunk loop emits at most one chunk per iteration, so at most `fuel`
chunks. -/
theorem chunkLoop_length_le (ct : List Char) (o : ChunkingOptions) (now : Int) :
    ∀ (fuel : Nat) (idx : ℚ) (bl : Nat),
      (chunkLoop ct o now idx bl fuel).length ≤ fuel := by
  intro fuel
  induction fuel with
  | zero =>
    intro idx bl
    simp [chunkLoop]
  | succ f ih =>
    intro idx bl
    simp only [chunkLoop]
    by_cases h1 : idx < (ct.length : ℚ)
    · rw [if_pos h1]
      by_cases h2 : (chunkStep ct o now idx bl).2 ≥ (ct.length : ℚ) ∨ bl + 1 > 100
      · rw [if_pos h2]
        simp
    
      · rw [if_neg h2]
        simp only [List.length_cons]
        have := ih (chunkStep ct o now idx bl).2 (bl + 1)
        omega
    · rw [if_neg h1]
      simp

set_option maxRecDepth 10000 in
/-- C3 counterexample: with `maxChars = 0` and `overlap = 0` (an options
record with `overlap ≥ maxChars`) on the two-character text "ab", the loop
never advances the cursor and the break `chunks.length > 100` only fires
after the 101st push: `chunkText` returns 101 chunks, refuting the bound of
100. -/
theorem c3_counterexample :
    copts0.rMaxChars ≤ copts0.rOverlap ∧ (chunkText 0 "ab" copts0).length = 101 := by
  constructor
  · decide
  · with_unfolding_all decide

/-- C3 (amended): for every options record (in particular those with
`overlap ≥ maxChars`) and every input, `chunkText` terminates (it is a total
function) and returns at most 101 chunks: the guard `chunks.length > 100` is
checked only after a push, so the loop stops when the cursor reaches the end
of the normalized text or when the 101st chunk has been emitted. -/
theorem c3_chunk_count_le_101 (now : Int) (text : String) (o : ChunkingOptions)
    (h : o.rMaxChars ≤ o.rOverlap) :
    (chunkText now text o).length ≤ 101 := by
  unfold chunkText
  by_cases h1 : (cleanTextOf text).length = 0
  · rw [if_pos h1]
    simp
  · rw [if_neg h1]
    by_cases h2 : (jsSplitWs (cleanTextOf text)).length ≤ o.rMaxWords ∧
        (cleanTextOf text).length ≤ o.rMaxChars
    · rw [if_pos h2]
      simp
    · rw [if_neg h2]
      exact chunkLoop_length_le _ _ _ 101 0 0

/-- Witness for `c3_chunk_count_le_101` at concrete inputs. -/
theorem c3_witness :
    copts0.rMaxChars ≤ copts0.rOverlap ∧ (chunkText 0 "ab" copts0).length ≤ 101 :=
  ⟨by decide, c3_chunk_count_le_101 0 "ab" copts0 (by decide)⟩

/-- The split of a string on whitespace always has at least one fragment. -/
theorem splitWsGo_ne_nil : ∀ (l : List Char) (mode : Bool) (cur : List Char),
    splitWsGo mode l cur ≠ [] := by
  intro l
  induction l with
  | nil =>
    intro mode cur
    cases mode <;> simp [splitWsGo]
  | cons c t ih =>
    intro mode cur
    cases mode <;> simp only [splitWsGo] <;> by_cases h : isJsWs c <;>
      simp [h, ih]

/-- `jsSplitWs` never returns the empty list (mirrors JS `split`, which
yields `[""]` on the empty string). -/
theorem jsSplitWs_ne_nil (l : List Char) : jsSplitWs l ≠ [] :=
  splitWsGo_ne_nil l false []

/-- The Jaccard similarity of a string with itself is 1 (in particular at
least 0.7, so adjacent identical chunks always collapse). -/
theorem calculateSimilarity_self (s : List Char) : calculateSimilarity s s = 1 := by
  unfold calculateSimilarity
  simp only
  set S := (jsSplitWs (s.map Char.toLower)).dedup with hS
  have hnd : S.Nodup := List.nodup_dedup _
  have hfil : S.filter (fun w => w ∈ S) = S := by
    rw [List.filter_eq_self]
    intro a ha
    simpa using ha
  have huni : ((S ++ S).dedup).length = S.length := by
    have hperm : List.Perm ((S ++ S).dedup) S := by
      rw [List.perm_ext_iff_of_nodup (List.nodup_dedup _) hnd]
      intro a
      simp [List.mem_dedup]
    exact hperm.length_eq
  rw [hfil, huni]
  have hlen : S.length ≠ 0 := by
    intro h0
    rw [List.length_eq_zero] at h0
    rw [hS, List.dedup_eq_nil] at h0
    exact jsSplitWs_ne_nil _ h0
  exact div_self (Nat.cast_ne_zero.mpr hlen)

/-- The accumulator of `dedupGo` is just prepended (reversed) to the
accumulator-free run. -/
theorem dedupGo_acc : ∀ (rem : List TextChunk) (prev : TextChunk)
    (acc : List TextChunk),
    dedupGo prev acc rem = acc.reverse ++ dedupGo prev [] rem := by
  intro rem
  induction rem with
  | nil =>
    intro prev acc
    simp [dedupGo]
  | cons c t ih =>
    intro prev acc
    simp only [dedupGo]
    by_cases h : calculateSimilarity c.content prev.content < 7 / 10
    · rw [if_pos h, if_pos h, ih c (c :: acc), ih c [c]]
      simp
    · rw [if_neg h, if_neg h, ih prev acc]

/-- One-step unfolding of the accumulator-free `dedupGo`. -/
theorem dedupGo_cons_eq (prev c : TextChunk) (t : List TextChunk) :
    dedupGo prev [] (c :: t) =
      if calculateSimilarity c.content prev.content < 7 / 10 then
        c :: dedupGo c [] t
      else dedupGo prev [] t := by
  simp only [dedupGo]
  by_cases h : calculateSimilarity c.content prev.content < 7 / 10
  · rw [if_pos h, if_pos h, dedupGo_acc t c [c]]
    simp
  · rw [if_neg h, if_neg h]

/-- The kept chunks form a sublist of the input. -/
theorem dedupGo_sublist : ∀ (t : List TextChunk) (prev : TextChunk),
    (dedupGo prev [] t).Sublist t := by
  intro t
  induction t with
  | nil =>
    intro prev
    simp [dedupGo]
  | cons c t ih =>
    intro prev
    rw [dedupGo_cons_eq]
    by_cases h : calculateSimilarity c.content prev.content < 7 / 10
    · rw [if_pos h]
      exact List.Sublist.cons₂ c (ih c)
    · rw [if_neg h]
      exact List.Sublist.cons c (ih prev)

/-- Every chunk kept after `prev` is dissimilar (< 0.7) from its
predecessor in the output. -/
theorem dedupGo_chain : ∀ (t : List TextChunk) (prev : TextChunk),
    List.Chain' (fun a b => calculateSimilarity b.content a.content < 7 / 10)
      (prev :: dedupGo prev [] t) := by
  intro t
  induction t with
  | nil =>
    intro prev
    simp [dedupGo]
  | cons c t ih =>
    intro prev
    rw [dedupGo_cons_eq]
    by_cases h : calculateSimilarity c.content prev.content < 7 / 10
    · rw [if_pos h]
      exact List.chain'_cons.mpr ⟨h, ih c⟩
    · rw [if_neg h]
      exact ih prev

/-- C5 counterexample: with chunks of contents "aa", "bb", "aa" the two
identical chunks are separated by a dissimilar kept chunk, so both survive
deduplication — the output contains `chA` twice, refuting "for two chunks
with identical content, at most one survives". -/
theorem c5_counterexample :
    deduplicateChunks [chA, chB, chA] = [chA, chB, chA] ∧
    (deduplicateChunks [chA, chB, chA]).count chA = 2 := by
  constructor
  · with_unfolding_all decide
  · with_unfolding_all decide

/-- C5 (amended): `deduplicateChunks` never removes the first chunk (the
head of the output is the head of the input), returns a sublist of its
input, and keeps a chunk exactly when its similarity to the immediately
preceding kept chunk is below 0.7 — so adjacent output chunks are pairwise
dissimilar and in particular have different contents (identical contents
have similarity 1); but identical chunks separated by a dissimilar kept
chunk may all survive. -/
theorem c5_dedup_semantics (cs : List TextChunk) :
    (deduplicateChunks cs).Sublist cs ∧
    (deduplicateChunks cs).head? = cs.head? ∧
    List.Chain' (fun a b => calculateSimilarity b.content a.content < 7 / 10)
      (deduplicateChunks cs) ∧
    List.Chain' (fun a b => b.content ≠ a.content) (deduplicateChunks cs) := by
  cases cs with
  | nil =>
    simp [deduplicateChunks]
  | cons c rest =>
    have hchain := dedupGo_chain rest c
    refine ⟨List.Sublist.cons₂ c (dedupGo_sublist rest c), rfl, ?_, ?_⟩
    · exact hchain
    · refine List.Chain'.imp ?_ hchain
      intro a b hab he
      rw [he, calculateSimilarity_self] at hab
      norm_num at hab

/-- The emitted chunk's `startIndex` is the loop's `currentIndex`. -/
theorem chunkStep_start (ct : List Char) (o : ChunkingOptions) (now : Int)
    (idx : ℚ) (c : Nat) : (chunkStep ct o now idx c).1.startIndex = idx := rfl

/-- The next cursor lies between `chunkEnd - overlap` and `chunkEnd`: the
subtracted `Math.min(overlap, chunkContent.length * 0.3)` is nonnegative and
at most `overlap`. -/
theorem chunkStep_bounds (ct : List Char) (o : ChunkingOptions) (now : Int)
    (idx : ℚ) (c : Nat) :
    (chunkStep ct o now idx c).1.endIndex - (o.rOverlap : ℚ) ≤
      (chunkStep ct o now idx c).2 ∧
    (chunkStep ct o now idx c).2 ≤ (chunkStep ct o now idx c).1.endIndex := by
  have he : (chunkStep ct o now idx c).1.endIndex = (chunkCore ct o idx).2 := rfl
  have hn : (chunkStep ct o now idx c).2 =
      (chunkCore ct o idx).2 -
        min (o.rOverlap : ℚ) (((chunkCore ct o idx).1.length : ℚ) * (3 / 10)) := rfl
  rw [he, hn]
  constructor
  · have hml : min (o.rOverlap : ℚ)
        (((chunkCore ct o idx).1.length : ℚ) * (3 / 10)) ≤ (o.rOverlap : ℚ) :=
      min_le_left _ _
    linarith
  · have h0 : (0 : ℚ) ≤ min (o.rOverlap : ℚ)
        (((chunkCore ct o idx).1.length : ℚ) * (3 / 10)) :=
      le_min (by positivity) (by positivity)
    linarith

/-- Loop invariant: the first emitted chunk starts at the current cursor and
consecutive chunks are chained with no gap and overlap at most `overlap`. -/
theorem chunkLoop_chain (ct : List Char) (o : ChunkingOptions) (now : Int) :
    ∀ (fuel : Nat) (idx : ℚ) (bl : Nat),
      (∀ c ∈ (chunkLoop ct o now idx bl fuel).head?, c.startIndex = idx) ∧
      List.Chain' (fun a b => b.startIndex ≤ a.endIndex ∧
        a.endIndex - b.startIndex ≤ (o.rOverlap : ℚ))
        (chunkLoop ct o now idx bl fuel) := by
  intro fuel
  induction fuel with
  | zero =>
    intro idx bl
    simp [chunkLoop]
  | succ f ih =>
    intro idx bl
    simp only [chunkLoop]
    by_cases h1 : idx < (ct.length : ℚ)
    · rw [if_pos h1]
      by_cases h2 : (chunkStep ct o now idx bl).2 ≥ (ct.length : ℚ) ∨ bl + 1 > 100
      · rw [if_pos h2]
        constructor
        · intro c hc
          simp only [List.head?_cons, Option.mem_def, Option.some.injEq] at hc
          rw [← hc, chunkStep_start]
        · simp
      · rw [if_neg h2]
        obtain ⟨ihh, ihc⟩ := ih (chunkStep ct o now idx bl).2 (bl + 1)
        constructor
        · intro c hc
          simp only [List.head?_cons, Option.mem_def, Option.some.injEq] at hc
          rw [← hc, chunkStep_start]
        · rw [List.chain'_cons']
          refine ⟨?_, ihc⟩
          intro b hb
          have hbs := ihh b hb
          have hbd := chunkStep_bounds ct o now idx bl
          constructor
          · rw [hbs]
            exact hbd.2
          · rw [hbs]
            have := hbd.1
            linarith
    · rw [if_neg h1]
      simp

/-- With fuel left and the cursor inside the text, the loop emits at least
one chunk. -/
theorem chunkLoop_ne_nil (ct : List Char) (o : ChunkingOptions) (now : Int)
    (idx : ℚ) (bl f : Nat) (h1 : idx < (ct.length : ℚ)) :
    chunkLoop ct o now idx bl (f + 1) ≠ [] := by
  simp only [chunkLoop]
  rw [if_pos h1]
  by_cases h2 : (chunkStep ct o now idx bl).2 ≥ (ct.length : ℚ) ∨ bl + 1 > 100
  · rw [if_pos h2]
    simp
  · rw [if_neg h2]
    simp

set_option maxRecDepth 10000 in
/-- C6 counterexample: on the non-empty text "ab" with `maxChars = 0`,
`overlap = 0`, every emitted chunk is `[0, 0)` and emission stops at the
101-chunk cap, so the chunks do not cover `[0, 2)` — the last chunk's
`endIndex` is 0, not the normalized length 2. -/
theorem c6_counterexample :
    ¬ chunksCoverClaim (chunkText 0 "ab" copts0)
      ((cleanTextOf "ab").length : ℚ) (copts0.rOverlap : ℚ) := by
  with_unfolding_all decide

/-- C6 (amended): for every input whose normalized text is non-empty and
every options record, the chunk list is non-empty, its first chunk starts at
0, and each chunk after the first starts at or before the previous chunk's
`endIndex` (no gaps) with overlap `prev.endIndex - next.startIndex` at most
`overlapChars`; but the chunks need not cover all of `[0, normalizedLength)`
— the 100-chunk cap can stop emission before the cursor reaches the text
end (see the counterexample). -/
theorem c6_chunk_chain (now : Int) (text : String) (o : ChunkingOptions)
    (h : cleanTextOf text ≠ []) :
    chunkText now text o ≠ [] ∧
    (∀ c ∈ (chunkText now text o).head?, c.startIndex = 0) ∧
    List.Chain' (fun a b => b.startIndex ≤ a.endIndex ∧
      a.endIndex - b.startIndex ≤ (o.rOverlap : ℚ)) (chunkText now text o) := by
  unfold chunkText
  have hlen0 : ¬ ((cleanTextOf text).length = 0) := by
    simpa [List.length_eq_zero] using h
  rw [if_neg hlen0]
  by_cases h2 : (jsSplitWs (cleanTextOf text)).length ≤ o.rMaxWords ∧
      (cleanTextOf text).length ≤ o.rMaxChars
  · rw [if_pos h2]
    refine ⟨by simp, ?_, by simp⟩
    intro c hc
    simp only [List.head?_cons, Option.mem_def, Option.some.injEq] at hc
    rw [← hc]
  · rw [if_neg h2]
    have hpos : (0 : ℚ) < ((cleanTextOf text).length : ℚ) := by
      have := Nat.pos_of_ne_zero hlen0
      exact_mod_cast this
    obtain ⟨hh, hc⟩ := chunkLoop_chain (cleanTextOf text) o now 101 0 0
    exact ⟨chunkLoop_ne_nil _ _ _ _ _ 100 hpos, hh, hc⟩

/-- Witness for `c6_chunk_chain` at concrete inputs. -/
theorem c6_witness :
    cleanTextOf "ab" ≠ [] ∧
    (chunkText 0 "ab" ({} : ChunkingOptions) ≠ [] ∧
    (∀ c ∈ (chunkText 0 "ab" ({} : ChunkingOptions)).head?, c.startIndex = 0) ∧
    List.Chain' (fun a b => b.startIndex ≤ a.endIndex ∧
      a.endIndex - b.startIndex ≤ (({} : ChunkingOptions).rOverlap : ℚ))
      (chunkText 0 "ab" ({} : ChunkingOptions))) :=
  ⟨by decide, c6_chunk_chain 0 "ab" {} (by decide)⟩

/-- C4 counterexample: a memory cache with `maxEntries = 2` holding keys
"a" then "b" is at capacity; a `set` with the already-present key "b"
nevertheless evicts the oldest entry "a" (the capacity check runs before
the key is looked up), leaving only "b" — refuting "set with a key that is
already present evicts nothing". -/
theorem c4_counterexample :
    mapGet (Cache.set oMem2
      (Cache.set oMem2
        (Cache.set (U := Nat) oMem2 [] [] false 0 "a" (some 1) none).1
        [] false 0 "b" (some 2) none).1
      [] false 0 "b" (some 3) none).1 "a" = none ∧
    (Cache.set oMem2
      (Cache.set oMem2
        (Cache.set (U := Nat) oMem2 [] [] false 0 "a" (some 1) none).1
        [] false 0 "b" (some 2) none).1
      [] false 0 "b" (some 3) none).1.map Prod.fst = ["b"] := by
  constructor
  · decide
  · decide
